import Mathlib

/-!
Verification of the TalentPitch tools-go message-moderation pipeline.

The Go sources are embedded shallowly: Go strings are modelled as `List Char`
(byte indexing and rune lowercasing coincide with character operations on the
ASCII fragment the moderation pipeline manipulates), fallible operations
return `Option`, and the remote chat-completion call is a parameter of the
orchestration function (`ChatResult`), since the library treats the classifier
as an opaque network collaborator.
-/

/-- Convert a Lean string literal to the `List Char` representation used
throughout this development. -/
def str (s : String) : List Char :=
  s.toList

/-- ASCII model of the whitespace class used by Go `strings.TrimSpace`. -/
def isSpaceChar (c : Char) : Bool :=
  c == ' ' || c == '\t' || c == '\n' || c == '\x0b' || c == '\x0c' || c == '\r'

/-- ASCII model of `unicode.ToLower` as applied by Go `strings.ToLower`. -/
def toLowerChar (c : Char) : Char :=
  if 'A' ≤ c && c ≤ 'Z' then Char.ofNat (c.toNat + 32) else c

/-- Lowercase a whole string, i.e. Go `strings.ToLower`. -/
def lowerL (s : List Char) : List Char :=
  s.map toLowerChar

/-- Source `isAlphanumeric` (groq/blocked_terms.go): ASCII letters and digits. -/
def isAlphanumeric (b : Char) : Bool :=
  ('a' ≤ b && b ≤ 'z') || ('A' ≤ b && b ≤ 'Z') || ('0' ≤ b && b ≤ '9')

/-- The separator normalization of `containsBlockedTerm`: the two successive
`strings.ReplaceAll` calls replace the single characters `_` and `-` by a
space, which is exactly a character map. -/
def normalizeChar (c : Char) : Char :=
  if c == '_' || c == '-' then ' ' else c

/-- Go `strings.TrimSpace`: drop whitespace from both ends. -/
def trimSpaceL (s : List Char) : List Char :=
  ((s.dropWhile isSpaceChar).reverse.dropWhile isSpaceChar).reverse

/-- Go `strings.Index t s` (argument order: pattern first): position of the
first occurrence of `t` in `s`, or `none` when absent. -/
def strIndex (t : List Char) : List Char → Option Nat
  | [] => if t.isPrefixOf ([] : List Char) then some 0 else none
  | c :: s' =>
    if t.isPrefixOf (c :: s') then some 0
    else (strIndex t s').map (· + 1)

/-- Go `strings.Contains s t`. -/
def containsL (s t : List Char) : Bool :=
  (strIndex t s).isSome

/-- The boundary check of source `isWholeWord` at occurrence position `p`:
`beforeOK` (position zero, or a non-alphanumeric character just before) and
`afterOK` (occurrence ends the message, or a non-alphanumeric character just
after). The `getD` accesses are guarded in bounds, so the default is inert. -/
def boundaryOkB (m t : List Char) (p : Nat) : Bool :=
  (p == 0 || !isAlphanumeric (m.getD (p - 1) ' ')) &&
  (decide (m.length ≤ p + t.length) || !isAlphanumeric (m.getD (p + t.length) ' '))

/-- Loop body of source `isWholeWord`: scan the occurrences of `term` in
`message` from position `index` on, looking for one that passes the boundary
check. The Go loop advances its index past each failed occurrence; the fuel
argument bounds the number of iterations (the wrapper supplies
`message.length + 1`, which the strictly increasing index can never exhaust
for a non-empty term). -/
def isWholeWordAux (message term : List Char) : Nat → Nat → Bool
  | _, 0 => false
  | index, fuel + 1 =>
    match strIndex term (message.drop index) with
    | none => false
    | some pos =>
      if boundaryOkB message term (index + pos) then true
      else isWholeWordAux message term (index + pos + 1) fuel

/-- Source `isWholeWord` (groq/blocked_terms.go). -/
def isWholeWord (message term : List Char) : Bool :=
  isWholeWordAux message term 0 (message.length + 1)

/-- Per-term loop of source `containsBlockedTerm`. -/
def containsBlockedTermAux (messageLower normalizedMessage : List Char) :
    List (List Char) → Bool × List Char
  | [] => (false, [])
  | term :: rest =>
    let termLower := lowerL (trimSpaceL term)
    if termLower = [] then containsBlockedTermAux messageLower normalizedMessage rest
    else if containsL messageLower termLower || containsL normalizedMessage termLower then
      if isWholeWord messageLower termLower || isWholeWord normalizedMessage termLower then
        (true, termLower)
      else containsBlockedTermAux messageLower normalizedMessage rest
    else containsBlockedTermAux messageLower normalizedMessage rest

/-- Source `containsBlockedTerm` (groq/blocked_terms.go). -/
def containsBlockedTerm (messageText : List Char) (blockedTerms : List (List Char)) :
    Bool × List Char :=
  if blockedTerms.isEmpty then (false, [])
  else
    let messageLower := lowerL messageText
    let normalizedMessage := messageLower.map normalizeChar
    containsBlockedTermAux messageLower normalizedMessage blockedTerms

/-- Specification-side whole-word matching: some occurrence position of the
term satisfies the word-boundary condition. -/
def wholeWordSpecB (m t : List Char) : Bool :=
  (List.range (m.length + 1)).any fun p => t.isPrefixOf (m.drop p) && boundaryOkB m t p

/-- Specification-side per-term test: a term participates when, lowercased
and whitespace-trimmed, it is non-empty and has a word-boundary occurrence in
the lowercased text or in its separator-normalized form. -/
def termMatcherSpecF (mLower mNorm term : List Char) : Option (List Char) :=
  let tl := lowerL (trimSpaceL term)
  if tl ≠ [] && (wholeWordSpecB mLower tl || wholeWordSpecB mNorm tl) then some tl
  else none

/-- Term matcher as the specification words it: the first term of the list
(in list order) that passes `termMatcherSpecF` wins. -/
def termMatcherSpec (x : List Char) (terms : List (List Char)) : Bool × List Char :=
  let mLower := lowerL x
  let mNorm := mLower.map normalizeChar
  match terms.findSome? (termMatcherSpecF mLower mNorm) with
  | some tl => (true, tl)
  | none => (false, [])

/-- JSON values, the target of the response decoding. Numeric payloads are
never stored by the Go struct, so their value is not retained. -/
inductive Json where
  | null
  | bool (b : Bool)
  | num
  | str (s : List Char)
  | arr (xs : List Json)
  | obj (kvs : List (List Char × Json))

/-- JSON insignificant whitespace. -/
def jsonWsChar (c : Char) : Bool :=
  c == ' ' || c == '\t' || c == '\n' || c == '\r'

/-- Skip insignificant whitespace. -/
def skipWs (s : List Char) : List Char :=
  s.dropWhile jsonWsChar

/-- Single-character JSON string escapes. The model omits `\u` escapes, which
never occur in the moderation protocol. -/
def escChar (e : Char) : Option Char :=
  if e == '"' then some '"'
  else if e == '\\' then some '\\'
  else if e == '/' then some '/'
  else if e == 'n' then some '\n'
  else if e == 't' then some '\t'
  else if e == 'r' then some '\r'
  else if e == 'b' then some '\x08'
  else if e == 'f' then some '\x0c'
  else none

/-- Parse the body of a JSON string after the opening quote, returning the
decoded characters and the remaining input. -/
def parseStringBody : List Char → Option (List Char × List Char)
  | [] => none
  | c :: rest =>
    if c == '"' then some ([], rest)
    else if c == '\\' then
      match rest with
      | [] => none
      | e :: rest' =>
        match escChar e with
        | some ec => (parseStringBody rest').map fun r => (ec :: r.1, r.2)
        | none => none
    else if c.toNat < 32 then none
    else (parseStringBody rest).map fun r => (c :: r.1, r.2)

/-- Decimal digit test. -/
def isDigitChar (c : Char) : Bool :=
  '0' ≤ c && c ≤ '9'

/-- Parse an optional fraction part. -/
def parseFrac : List Char → Option (List Char)
  | '.' :: rest =>
    if (rest.takeWhile isDigitChar).isEmpty then none
    else some (rest.dropWhile isDigitChar)
  | s => some s

/-- Parse an optional exponent part. -/
def parseExp : List Char → Option (List Char)
  | [] => some []
  | c :: rest =>
    if c == 'e' || c == 'E' then
      let rest2 :=
        match rest with
        | sc :: r2 => if sc == '+' || sc == '-' then r2 else rest
        | [] => rest
      if (rest2.takeWhile isDigitChar).isEmpty then none
      else some (rest2.dropWhile isDigitChar)
    else some (c :: rest)

/-- Parse the digits of a number (sign already consumed). -/
def parseNumberTail (s : List Char) : Option (List Char) :=
  if (s.takeWhile isDigitChar).isEmpty then none
  else
    match parseFrac (s.dropWhile isDigitChar) with
    | none => none
    | some s2 => parseExp s2

mutual

/-- Recursive-descent JSON value parser. The fuel argument only bounds the
recursion depth; the top-level entry point supplies more fuel than any input
can consume, since every recursive call follows at least one consumed
character. -/
def parseValue : Nat → List Char → Option (Json × List Char)
  | 0, _ => none
  | fuel + 1, s =>
    match skipWs s with
    | [] => none
    | c :: rest =>
      if c == '"' then (parseStringBody rest).map fun r => (Json.str r.1, r.2)
      else if c == '{' then parseObjFirst fuel rest
      else if c == '[' then parseArrFirst fuel rest
      else if c == 't' then
        if (str "rue").isPrefixOf rest then some (Json.bool true, rest.drop 3) else none
      else if c == 'f' then
        if (str "alse").isPrefixOf rest then some (Json.bool false, rest.drop 4) else none
      else if c == 'n' then
        if (str "ull").isPrefixOf rest then some (Json.null, rest.drop 3) else none
      else if c == '-' then (parseNumberTail rest).map fun r => (Json.num, r)
      else if isDigitChar c then (parseNumberTail (c :: rest)).map fun r => (Json.num, r)
      else none

/-- Parse an object body right after the opening brace. -/
def parseObjFirst : Nat → List Char → Option (Json × List Char)
  | 0, _ => none
  | fuel + 1, s =>
    match skipWs s with
    | [] => none
    | c :: rest =>
      if c == '}' then some (Json.obj [], rest)
      else (parseMember fuel (c :: rest)).map fun r => (Json.obj r.1, r.2)

/-- Parse one object member and the members that follow it. -/
def parseMember : Nat → List Char → Option (List (List Char × Json) × List Char)
  | 0, _ => none
  | fuel + 1, s =>
    match skipWs s with
    | [] => none
    | c :: rest =>
      if c == '"' then
        match parseStringBody rest with
        | none => none
        | some (key, afterKey) =>
          match skipWs afterKey with
          | ':' :: afterColon =>
            match parseValue fuel afterColon with
            | none => none
            | some (v, afterVal) =>
              match skipWs afterVal with
              | ',' :: afterComma =>
                (parseMember fuel afterComma).map fun r => ((key, v) :: r.1, r.2)
              | '}' :: afterBrace => some ([(key, v)], afterBrace)
              | _ => none
          | _ => none
      else none

/-- Parse an array body right after the opening bracket. -/
def parseArrFirst : Nat → List Char → Option (Json × List Char)
  | 0, _ => none
  | fuel + 1, s =>
    match skipWs s with
    | [] => none
    | c :: rest =>
      if c == ']' then some (Json.arr [], rest)
      else (parseElement fuel (c :: rest)).map fun r => (Json.arr r.1, r.2)

/-- Parse one array element and the elements that follow it. -/
def parseElement : Nat → List Char → Option (List Json × List Char)
  | 0, _ => none
  | fuel + 1, s =>
    match parseValue fuel s with
    | none => none
    | some (v, afterVal) =>
      match skipWs afterVal with
      | ',' :: afterComma => (parseElement fuel afterComma).map fun r => (v :: r.1, r.2)
      | ']' :: afterBracket => some ([v], afterBracket)
      | _ => none

end

/-- Parse a complete JSON document: one value, surrounded by whitespace only. -/
def jsonParse (s : List Char) : Option Json :=
  match parseValue (s.length + 1) s with
  | some (v, rest) => if skipWs rest = [] then some v else none
  | none => none

/-- Model of `json.Unmarshal` into the anonymous struct of
`CheckMessageContent` with fields `is_malicious`, `error_code`, `reason`:
field names match case-insensitively, later duplicates win, a `null` value
leaves the field at its zero value, a type mismatch is a decoding error, and
a top-level `null` document leaves the whole struct at its zero value. -/
def decodeModeration (s : List Char) : Option (Bool × List Char × List Char) :=
  match jsonParse s with
  | some (Json.obj kvs) =>
    kvs.foldlM (fun acc kv =>
      let key := lowerL kv.1
      if key = str "is_malicious" then
        match kv.2 with
        | Json.bool b => some (b, acc.2.1, acc.2.2)
        | Json.null => some acc
        | _ => none
      else if key = str "error_code" then
        match kv.2 with
        | Json.str v => some (acc.1, v, acc.2.2)
        | Json.null => some acc
        | _ => none
      else if key = str "reason" then
        match kv.2 with
        | Json.str v => some (acc.1, acc.2.1, v)
        | Json.null => some acc
        | _ => none
      else some acc) ((false, [], []) : Bool × List Char × List Char)
  | some Json.null => some (false, [], [])
  | some _ => none
  | none => none

/-- Go `strings.TrimPrefix`. -/
def trimPrefixL (s p : List Char) : List Char :=
  if p.isPrefixOf s then s.drop p.length else s

/-- Go `strings.TrimSuffix`. -/
def trimSuffixL (s p : List Char) : List Char :=
  if p.isSuffixOf s then s.take (s.length - p.length) else s

/-- The response cleaning of `CheckMessageContent`: trim whitespace, strip a
leading markdown fence (language-tagged or bare) together with a trailing
fence, and trim again. -/
def cleanResponse (responseText : List Char) : List Char :=
  let t := trimSpaceL responseText
  let t2 :=
    if (str "```json").isPrefixOf t then trimSuffixL (trimPrefixL t (str "```json")) (str "```")
    else if (str "```").isPrefixOf t then trimSuffixL (trimPrefixL t (str "```")) (str "```")
    else t
  trimSpaceL t2

/-- The verdict `CheckMessageContent` derives from the cleaned response text:
decode the moderation JSON; on failure fall back to the textual heuristic; on
success default a blank error code of a malicious verdict to CONTENT_OTHER. -/
def verdictFromCleaned (responseText : List Char) : Bool × List Char × List Char :=
  match decodeModeration responseText with
  | none =>
    if containsL (lowerL responseText) (str "is_malicious") &&
        containsL (lowerL responseText) (str "true") then
      (true, str "CONTENT_OTHER", [])
    else (false, [], [])
  | some (im, ec, reason) =>
    if im then (true, if ec = [] then str "CONTENT_OTHER" else ec, reason)
    else (false, [], [])

/-- Verdict from one raw choice text: clean, then decode. -/
def moderationVerdict (content : List Char) : Bool × List Char × List Char :=
  verdictFromCleaned (cleanResponse content)

/-- The fields of `groq.Client` that the moderation verdict can depend on.
`hasApiClient` is the `c.client ≠ nil` test; a `Client` built by `NewClient`
always carries a usable API handle. The endpoint, model name and prompt
builder only shape the outbound request, which the `ChatResult` parameter
abstracts, so they are not represented. -/
structure Client where
  hasApiClient : Bool
  blockedTerms : List (List Char)
  deriving DecidableEq

/-- Outcome of the single outbound chat-completion request: a transport/API
error, or a response carrying the content of each choice. -/
inductive ChatResult where
  | failure (errMsg : List Char)
  | success (choices : List (List Char))
  deriving DecidableEq

/-- Everything `CheckMessageContent` returns, plus whether the remote
classifier call was performed. -/
structure CheckOutcome where
  isMalicious : Bool
  errorCode : List Char
  reason : List Char
  err : Option (List Char)
  classifierCalled : Bool
  deriving DecidableEq

/-- Source `CheckMessageContent` (helpers/jwt.go, groq section). The remote
call is abstracted by `api`; `classifierCalled` records whether the code
reaches `CreateChatCompletion`. -/
def CheckMessageContent (c : Option Client) (api : ChatResult) (messageText : List Char) :
    CheckOutcome :=
  match c with
  | none => ⟨false, [], [], none, false⟩
  | some cl =>
    if !cl.hasApiClient then ⟨false, [], [], none, false⟩
    else
      match api with
      | ChatResult.failure errMsg =>
        ⟨false, [], [], some (str "error calling Groq API: " ++ errMsg), true⟩
      | ChatResult.success choices =>
        match choices with
        | [] => ⟨false, [], [], some (str "no response from Groq API"), true⟩
        | content :: _ =>
          let v := moderationVerdict content
          ⟨v.1, v.2.1, v.2.2, none, true⟩

/-- Source `FilterMessageWithAI` (groq/message_filter.go): a plain alias of
`CheckMessageContent`. -/
def FilterMessageWithAI (c : Option Client) (api : ChatResult) (messageText : List Char) :
    CheckOutcome :=
  CheckMessageContent c api messageText

/-- The part of `groq.Config` that decides client construction: API key and
the optional blocked-term override (nil keeps the embedded default list, an
explicit empty list disables the stage). -/
structure Config where
  apiKey : List Char
  blockedTerms : Option (List (List Char))

/-- Source `NewClient` (groq/message_filter.go): resolve the API key from the
config or the environment, give up (nil client) when none is available, and
resolve the blocked-term list. -/
def NewClient (cfg : Config) (envApiKey : List Char) (defaultTerms : List (List Char)) :
    Option Client :=
  let apiKey := if cfg.apiKey = [] then envApiKey else cfg.apiKey
  if apiKey = [] then none
  else
    some
      { hasApiClient := true
        blockedTerms :=
          match cfg.blockedTerms with
          | none => defaultTerms
          | some ts => ts }

/-- Source `AcceptableMessageValidator` (validators/acceptable.go): empty
field passes, an error from the check fails closed, otherwise the field is
valid iff the message is not malicious. -/
def AcceptableMessageValidator (c : Option Client) (api : ChatResult) (msg : List Char) :
    Bool :=
  if msg = [] then true
  else
    let out := FilterMessageWithAI c api msg
    match out.err with
    | some _ => false
    | none => !out.isMalicious

/-- Shape of the caller-supplied `MaliciousMessageSaver.SaveMaliciousMessage`
method (helpers/jwt.go, groq section). -/
abbrev SaverFn : Type :=
  Int → Int → List Char → List Char → List Char → List Char → Option (List Char)

/-- Source package-level `SaveMaliciousMessage` (helpers/jwt.go, groq
section): skip silently without a saver, otherwise delegate. -/
def SaveMaliciousMessage (saver : Option SaverFn) (fromUserID toUserID : Int)
    (messageText errorCode reason currentTime : List Char) : Option (List Char) :=
  match saver with
  | none => none
  | some f => f fromUserID toUserID messageText errorCode reason currentTime

/-- The six documented rejection codes. -/
def definedErrorCodes : List (List Char) :=
  [str "CONTENT_SPAM", str "CONTENT_INAPPROPRIATE", str "CONTENT_HARASSMENT",
   str "CONTENT_SCAM", str "CONTENT_VIOLENCE", str "CONTENT_OTHER"]

/-- The backquote character delimiting markdown fences. -/
def backtick : Char :=
  Char.ofNat 96

/-- Characters that can appear in the material `cleanResponse` removes after
the kept text: fence backquotes and whitespace. -/
def charTickWs (c : Char) : Prop :=
  c = backtick ∨ isSpaceChar c = true

/-- Characters that can appear in the material `cleanResponse` removes before
the kept text: fence backquotes, the fence language tag, and whitespace. -/
def charFenceWs (c : Char) : Prop :=
  c = backtick ∨ c = 'j' ∨ c = 's' ∨ c = 'o' ∨ c = 'n' ∨ isSpaceChar c = true

instance (c : Char) : Decidable (charTickWs c) := by
  unfold charTickWs
  infer_instance

instance (c : Char) : Decidable (charFenceWs c) := by
  unfold charFenceWs
  infer_instance

example :
    decodeModeration
      (str "\x7b\"is_malicious\": true, \"error_code\": \"CONTENT_SCAM\", \"reason\": \"phishing link\"\x7d") =
      some (true, str "CONTENT_SCAM", str "phishing link") := by decide
example : decodeModeration (str "not json") = none := by decide
example : decodeModeration (str "null") = some (false, [], []) := by decide
example :
    moderationVerdict (str "```json\n\x7b\"is_malicious\": false, \"error_code\": null, \"reason\": \"\"\x7d\n```") =
      (false, [], []) := by decide
example : moderationVerdict (str "\x7b\"is_malicious\": true,\x7d") = (true, str "CONTENT_OTHER", []) := by decide
example : moderationVerdict (str "I refuse to answer.") = (false, [], []) := by decide

example : containsBlockedTerm (str "This is SPAM!!") [str "spam"] = (true, str "spam") := by decide
example : containsBlockedTerm (str "class") [str "ass"] = (false, []) := by decide
example : containsBlockedTerm (str "you ass!") [str "ass"] = (true, str "ass") := by decide
example : containsBlockedTerm (str "a_s_s") [str "ass"] = (false, []) := by decide
example : containsBlockedTerm (str "bad-word here") [str "bad word"] = (true, str "bad word") := by decide
example : termMatcherSpec (str "you ass!") [str "ass"] = (true, str "ass") := by decide

/-- A successful `strIndex` search returns the first occurrence: the pattern
is a prefix of the remainder at the returned position, and at no earlier one. -/
theorem strIndex_some_spec {t : List Char} :
    ∀ {s : List Char} {p : Nat}, strIndex t s = some p →
      t <+: s.drop p ∧ ∀ q, q < p → ¬ t <+: s.drop q := by
  intro s
  induction s with
  | nil =>
    intro p h
    simp only [strIndex] at h
    split at h
    · rename_i h0
      cases h
      exact ⟨List.isPrefixOf_iff_prefix.mp h0, fun q hq => absurd hq (Nat.not_lt_zero q)⟩
    · cases h
  | cons c s' ih =>
    intro p h
    simp only [strIndex] at h
    split at h
    · rename_i h0
      cases h
      exact ⟨List.isPrefixOf_iff_prefix.mp h0, fun q hq => absurd hq (Nat.not_lt_zero q)⟩
    · rename_i h0
      rw [Option.map_eq_some'] at h
      obtain ⟨p', hp', rfl⟩ := h
      obtain ⟨hpre, hmin⟩ := ih hp'
      refine ⟨by simpa using hpre, ?_⟩
      intro q hq
      cases q with
      | zero =>
        simp only [List.drop_zero]
        intro hcon
        exact h0 (List.isPrefixOf_iff_prefix.mpr hcon)
      | succ q' =>
        simp only [List.drop_succ_cons]
        exact hmin q' (Nat.lt_of_succ_lt_succ hq)

/-- A failed `strIndex` search means the pattern occurs at no position. -/
theorem strIndex_none_spec {t : List Char} :
    ∀ {s : List Char}, strIndex t s = none → ∀ q, ¬ t <+: s.drop q := by
  intro s
  induction s with
  | nil =>
    intro h q
    simp only [strIndex] at h
    split at h
    · cases h
    · rename_i h0
      rw [List.drop_nil]
      intro hcon
      exact h0 (List.isPrefixOf_iff_prefix.mpr hcon)
  | cons c s' ih =>
    intro h q
    simp only [strIndex] at h
    split at h
    · cases h
    · rename_i h0
      have h' : strIndex t s' = none := by
        cases hx : strIndex t s' with
        | none => rfl
        | some v => rw [hx] at h; cases h
      cases q with
      | zero =>
        simp only [List.drop_zero]
        intro hcon
        exact h0 (List.isPrefixOf_iff_prefix.mpr hcon)
      | succ q' =>
        simp only [List.drop_succ_cons]
        exact ih h' q'

/-- `strings.Contains` finds the pattern iff it occurs at some position. -/
theorem containsL_iff_exists {s t : List Char} :
    containsL s t = true ↔ ∃ p, t <+: s.drop p := by
  unfold containsL
  cases hx : strIndex t s with
  | none =>
    constructor
    · intro h
      exact absurd h (by simp)
    · rintro ⟨p, hp⟩
      exact absurd hp (strIndex_none_spec hx p)
  | some p =>
    exact ⟨fun _ => ⟨p, (strIndex_some_spec hx).1⟩, fun _ => rfl⟩

/-- The occurrence-scanning loop of `isWholeWord` finds a boundary-satisfying
occurrence at or after its start index exactly when one exists, provided the
fuel covers the remaining positions. -/
theorem isWholeWordAux_iff {m t : List Char} (ht : t ≠ []) :
    ∀ fuel index, m.length + 1 ≤ fuel + index →
      (isWholeWordAux m t index fuel = true ↔
        ∃ p, index ≤ p ∧ t <+: m.drop p ∧ boundaryOkB m t p = true) := by
  intro fuel
  induction fuel with
  | zero =>
    intro index hle
    simp only [isWholeWordAux]
    constructor
    · intro h; cases h
    · rintro ⟨p, hip, hpre, _⟩
      have hdrop : m.drop p = [] := List.drop_eq_nil_of_le (by omega)
      rw [hdrop] at hpre
      exact absurd (List.prefix_nil.mp hpre) ht
  | succ fuel ih =>
    intro index hle
    cases hidx : strIndex t (m.drop index) with
    | none =>
      have hnone := strIndex_none_spec hidx
      simp only [List.drop_drop] at hnone
      simp only [isWholeWordAux, hidx]
      constructor
      · intro h
        exact absurd h (by simp)
      · rintro ⟨p, hip, hpre, _⟩
        have hq := hnone (p - index)
        rw [show index + (p - index) = p by omega] at hq
        exact absurd hpre hq
    | some pos =>
      have hsome := strIndex_some_spec hidx
      simp only [List.drop_drop] at hsome
      obtain ⟨hpre0, hmin⟩ := hsome
      simp only [isWholeWordAux, hidx]
      by_cases hb : boundaryOkB m t (index + pos) = true
      · rw [if_pos hb]
        constructor
        · intro _
          exact ⟨index + pos, Nat.le_add_right index pos, hpre0, hb⟩
        · intro _; rfl
      · rw [if_neg hb]
        rw [ih (index + pos + 1) (by omega)]
        constructor
        · rintro ⟨p, hip, h1, h2⟩
          exact ⟨p, by omega, h1, h2⟩
        · rintro ⟨p, hip, h1, h2⟩
          refine ⟨p, ?_, h1, h2⟩
          rcases Nat.lt_or_ge p (index + pos) with hlt | hge
          · exfalso
            have hq := hmin (p - index) (by omega)
            rw [show index + (p - index) = p by omega] at hq
            exact hq h1
          · rcases Nat.eq_or_lt_of_le hge with heq | hlt2
            · exfalso
              rw [← heq] at h2
              exact hb h2
            · omega

/-- For a non-empty term the Go occurrence-scanning loop agrees with the
specification-side bounded search over all positions. -/
theorem isWholeWord_eq_spec {m t : List Char} (ht : t ≠ []) :
    isWholeWord m t = wholeWordSpecB m t := by
  have h1 := isWholeWordAux_iff (m := m) ht (m.length + 1) 0 (by omega)
  have h1' : isWholeWord m t = true ↔ ∃ p, t <+: m.drop p ∧ boundaryOkB m t p = true := by
    unfold isWholeWord
    rw [h1]
    exact ⟨fun ⟨p, _, h⟩ => ⟨p, h⟩, fun ⟨p, ha, hb⟩ => ⟨p, Nat.zero_le p, ha, hb⟩⟩
  have h2 : wholeWordSpecB m t = true ↔
      ∃ p, t <+: m.drop p ∧ boundaryOkB m t p = true := by
    unfold wholeWordSpecB
    rw [List.any_eq_true]
    constructor
    · rintro ⟨p, _, hp⟩
      rw [Bool.and_eq_true, List.isPrefixOf_iff_prefix] at hp
      exact ⟨p, hp.1, hp.2⟩
    · rintro ⟨p, hpre, hb⟩
      have hple : p ≤ m.length := by
        by_contra hgt
        push_neg at hgt
        have hdrop : m.drop p = [] := List.drop_eq_nil_of_le (by omega)
        rw [hdrop] at hpre
        exact ht (List.prefix_nil.mp hpre)
      refine ⟨p, List.mem_range.mpr (by omega), ?_⟩
      rw [Bool.and_eq_true, List.isPrefixOf_iff_prefix]
      exact ⟨hpre, hb⟩
  rw [Bool.eq_iff_iff, h1', h2]

/-- A specification-side whole-word match implies plain containment. -/
theorem containsL_of_spec {m t : List Char} (h : wholeWordSpecB m t = true) :
    containsL m t = true := by
  unfold wholeWordSpecB at h
  rw [List.any_eq_true] at h
  obtain ⟨p, _, hp⟩ := h
  rw [Bool.and_eq_true, List.isPrefixOf_iff_prefix] at hp
  exact containsL_iff_exists.mpr ⟨p, hp.1⟩

/-- The per-term loop of `containsBlockedTerm` computes the first-match
search described by the specification. -/
theorem containsBlockedTermAux_eq (mL mN : List Char) :
    ∀ terms : List (List Char),
      containsBlockedTermAux mL mN terms =
        match terms.findSome? (termMatcherSpecF mL mN) with
        | some tl => (true, tl)
        | none => (false, []) := by
  intro terms
  induction terms with
  | nil => rfl
  | cons term rest ih =>
    by_cases htl : lowerL (trimSpaceL term) = []
    · have hstep : containsBlockedTermAux mL mN (term :: rest) =
          containsBlockedTermAux mL mN rest := by
        simp [containsBlockedTermAux, htl]
      have hf : termMatcherSpecF mL mN term = none := by
        simp only [termMatcherSpecF]
        rw [if_neg]
        intro hcon
        rw [Bool.and_eq_true] at hcon
        exact (of_decide_eq_true hcon.1) htl
      rw [hstep, ih]
      simp only [List.findSome?_cons, hf]
    · by_cases hww : (wholeWordSpecB mL (lowerL (trimSpaceL term)) ||
          wholeWordSpecB mN (lowerL (trimSpaceL term))) = true
      · have hcontains : (containsL mL (lowerL (trimSpaceL term)) ||
            containsL mN (lowerL (trimSpaceL term))) = true := by
          rcases Bool.or_eq_true_iff.mp hww with h | h
          · rw [containsL_of_spec h]
            rfl
          · rw [containsL_of_spec h, Bool.or_true]
        have hw2 : (isWholeWord mL (lowerL (trimSpaceL term)) ||
            isWholeWord mN (lowerL (trimSpaceL term))) = true := by
          rw [isWholeWord_eq_spec htl, isWholeWord_eq_spec htl]
          exact hww
        have hstep : containsBlockedTermAux mL mN (term :: rest) =
            (true, lowerL (trimSpaceL term)) := by
          simp [containsBlockedTermAux, htl, hcontains, hw2]
        have hf : termMatcherSpecF mL mN term = some (lowerL (trimSpaceL term)) := by
          simp only [termMatcherSpecF]
          rw [if_pos]
          rw [Bool.and_eq_true]
          exact ⟨decide_eq_true htl, hww⟩
        rw [hstep]
        simp only [List.findSome?_cons, hf]
      · have hwwf : (wholeWordSpecB mL (lowerL (trimSpaceL term)) ||
            wholeWordSpecB mN (lowerL (trimSpaceL term))) = false :=
          Bool.eq_false_iff.mpr hww
        have hw2 : (isWholeWord mL (lowerL (trimSpaceL term)) ||
            isWholeWord mN (lowerL (trimSpaceL term))) = false := by
          rw [isWholeWord_eq_spec htl, isWholeWord_eq_spec htl]
          exact hwwf
        have hstep : containsBlockedTermAux mL mN (term :: rest) =
            containsBlockedTermAux mL mN rest := by
          cases hc : (containsL mL (lowerL (trimSpaceL term)) ||
              containsL mN (lowerL (trimSpaceL term))) <;>
            simp [containsBlockedTermAux, htl, hc, hw2]
        have hf : termMatcherSpecF mL mN term = none := by
          simp only [termMatcherSpecF]
          rw [if_neg]
          intro hcon
          rw [Bool.and_eq_true] at hcon
          rw [hcon.2] at hwwf
          cases hwwf
        rw [hstep, ih]
        simp only [List.findSome?_cons, hf]

/-- C2: containsBlockedTerm returns (true, t) for the first term (in list
order) that, lowercased and whitespace-trimmed, is non-empty and occurs at a
word-boundary position in the lowercased text or in its separator-normalized
form; otherwise (false, ""). The empty term list yields (false, ""). -/
theorem c2_matcher_matches_spec (x : List Char) (terms : List (List Char)) :
    containsBlockedTerm x terms = termMatcherSpec x terms := by
  unfold containsBlockedTerm termMatcherSpec
  cases terms with
  | nil => rfl
  | cons t ts =>
    have h := containsBlockedTermAux_eq (lowerL x) ((lowerL x).map normalizeChar) (t :: ts)
    simpa using h

/-- C3: the occurrence-scanning loop enforces word boundaries exactly as the
specification describes (all positions scanned, neighbours absent or
non-alphanumeric), and on the concrete cases: "ass" does not match inside
"class" or "classroom", matches in "you ass!", and does not match "a_s_s". -/
theorem c3_word_boundary_enforcement :
    (∀ m t : List Char, t ≠ [] → isWholeWord m t = wholeWordSpecB m t) ∧
    containsBlockedTerm (str "class") [str "ass"] = (false, []) ∧
    containsBlockedTerm (str "classroom") [str "ass"] = (false, []) ∧
    containsBlockedTerm (str "you ass!") [str "ass"] = (true, str "ass") ∧
    containsBlockedTerm (str "a_s_s") [str "ass"] = (false, []) :=
  ⟨fun _ _ ht => isWholeWord_eq_spec ht, by decide, by decide, by decide, by decide⟩

/-- Witness for C3 at a concrete message and non-empty term. -/
theorem c3_word_boundary_enforcement_witness :
    isWholeWord (str "you ass!") (str "ass") = wholeWordSpecB (str "you ass!") (str "ass") :=
  c3_word_boundary_enforcement.1 (str "you ass!") (str "ass") (by decide)

/-- Invariant of the verdict computed from a cleaned response text: a clean
verdict carries no error code and no reason, a malicious verdict always
carries a nonempty error code. -/
theorem verdictFromCleaned_invariant (s : List Char) :
    ((verdictFromCleaned s).1 = false →
      (verdictFromCleaned s).2.1 = [] ∧ (verdictFromCleaned s).2.2 = []) ∧
    ((verdictFromCleaned s).1 = true → (verdictFromCleaned s).2.1 ≠ []) := by
  unfold verdictFromCleaned
  cases h : decodeModeration s with
  | none =>
    by_cases hc : containsL (lowerL s) (str "is_malicious") && containsL (lowerL s) (str "true")
    · simp [hc]
      decide
    · simp [hc]
  | some r =>
    obtain ⟨im, ec, reason⟩ := r
    cases im with
    | false => simp
    | true =>
      by_cases he : ec = []
      · simp [he]
        decide
      · simp [he]

/-- C10: the package-level SaveMaliciousMessage helper returns nil without
invoking the sink when the saver is nil, and otherwise returns exactly the
saver's result for the same arguments. -/
theorem c10_save_malicious_delegates (f : SaverFn) (fromUserID toUserID : Int)
    (messageText errorCode reason currentTime : List Char) :
    SaveMaliciousMessage none fromUserID toUserID messageText errorCode reason currentTime =
      none ∧
    SaveMaliciousMessage (some f) fromUserID toUserID messageText errorCode reason currentTime =
      f fromUserID toUserID messageText errorCode reason currentTime :=
  ⟨rfl, rfl⟩

/-- C6: on a transport/API failure, and on a successful response with an
empty choice list, CheckMessageContent fails open (not malicious, empty code
and reason) and surfaces a non-nil error describing the failure. -/
theorem c6_fail_open_on_transport (ts : List (List Char)) (msg errMsg : List Char) :
    CheckMessageContent (some ⟨true, ts⟩) (ChatResult.failure errMsg) msg =
      ⟨false, [], [], some (str "error calling Groq API: " ++ errMsg), true⟩ ∧
    CheckMessageContent (some ⟨true, ts⟩) (ChatResult.success []) msg =
      ⟨false, [], [], some (str "no response from Groq API"), true⟩ :=
  ⟨rfl, rfl⟩

/-- C5: with a nil client handle or a nil underlying API client (as produced
by NewClient when no API key is available from the config or the
environment), CheckMessageContent is a silent fail-open no-op: not malicious,
empty code and reason, nil error, and no classifier call. -/
theorem c5_uninitialized_fail_open (api : ChatResult) (msg : List Char) (cl : Client)
    (h : cl.hasApiClient = false) (cfg : Config) (envApiKey : List Char)
    (defaultTerms : List (List Char)) (hk : cfg.apiKey = []) (he : envApiKey = []) :
    CheckMessageContent none api msg = ⟨false, [], [], none, false⟩ ∧
    CheckMessageContent (some cl) api msg = ⟨false, [], [], none, false⟩ ∧
    NewClient cfg envApiKey defaultTerms = none := by
  refine ⟨rfl, ?_, ?_⟩
  · simp [CheckMessageContent, h]
  · simp [NewClient, hk, he]

/-- Witness for C5 at a concrete uninitialized client and empty-key config. -/
theorem c5_uninitialized_fail_open_witness :
    CheckMessageContent none (ChatResult.success []) [] = ⟨false, [], [], none, false⟩ ∧
    CheckMessageContent (some ⟨false, []⟩) (ChatResult.success []) [] =
      ⟨false, [], [], none, false⟩ ∧
    NewClient ⟨[], none⟩ [] [] = none :=
  c5_uninitialized_fail_open (ChatResult.success []) [] ⟨false, []⟩ rfl ⟨[], none⟩ [] [] rfl rfl

/-- C9: the validator adapter accepts the empty field unconditionally, fails
closed on any error from the underlying check, and otherwise returns the
negation of the malicious flag. -/
theorem c9_validator_adapter (c : Option Client) (api : ChatResult) (msg : List Char) :
    (msg = [] → AcceptableMessageValidator c api msg = true) ∧
    (msg ≠ [] → (FilterMessageWithAI c api msg).err ≠ none →
      AcceptableMessageValidator c api msg = false) ∧
    (msg ≠ [] → (FilterMessageWithAI c api msg).err = none →
      AcceptableMessageValidator c api msg = !(FilterMessageWithAI c api msg).isMalicious) := by
  refine ⟨fun h => by simp [AcceptableMessageValidator, h], fun h hne => ?_, fun h he => ?_⟩
  · unfold AcceptableMessageValidator
    rw [if_neg h]
    cases hv : (FilterMessageWithAI c api msg).err with
    | none => exact absurd hv hne
    | some e => simp [hv]
  · unfold AcceptableMessageValidator
    rw [if_neg h]
    simp [he]

/-- Witness for C9 at a concrete nonempty field and inert client. -/
theorem c9_validator_adapter_witness :
    AcceptableMessageValidator none (ChatResult.success []) (str "hello") =
      !(FilterMessageWithAI none (ChatResult.success []) (str "hello")).isMalicious :=
  (c9_validator_adapter none (ChatResult.success []) (str "hello")).2.2 (by decide) rfl

/-- C1: the term-matcher stage is never invoked by CheckMessageContent. The
blocklist matches the end-to-end scenario's input, yet for every classifier
outcome the remote call is performed, and with a benign classifier response
the verdict is clean instead of the immediate
(true, CONTENT_INAPPROPRIATE, "") the spec requires. -/
theorem c1_blocklist_stage_not_wired :
    containsBlockedTerm (str "This is SPAM!!") [str "spam"] = (true, str "spam") ∧
    (∀ api : ChatResult,
      (CheckMessageContent (some ⟨true, [str "spam"]⟩) api
          (str "This is SPAM!!")).classifierCalled = true) ∧
    CheckMessageContent (some ⟨true, [str "spam"]⟩)
        (ChatResult.success
          [str "\x7b\"is_malicious\": false, \"error_code\": null, \"reason\": \"\"\x7d"])
        (str "This is SPAM!!") =
      ⟨false, [], [], none, true⟩ := by
  refine ⟨by decide, ?_, by decide⟩
  intro api
  cases api with
  | failure e => rfl
  | success cs =>
    cases cs with
    | nil => rfl
    | cons a l => rfl

/-- Counterexample to C4: a parsed response whose error code is not one of
the six defined codes is passed through verbatim. -/
theorem c4_errorCode_escapes_enum :
    CheckMessageContent (some ⟨true, []⟩)
        (ChatResult.success
          [str "\x7b\"is_malicious\": true, \"error_code\": \"CONTENT_BANANA\", \"reason\": \"odd\"\x7d"])
        [] =
      ⟨true, str "CONTENT_BANANA", str "odd", none, true⟩ ∧
    str "CONTENT_BANANA" ∉ definedErrorCodes :=
  ⟨by decide, by decide⟩

/-- C4 (amended): a non-malicious verdict carries empty error code and
reason; a malicious verdict carries a nonempty error code, namely the parsed
response's code when nonempty (not necessarily one of the six defined codes)
and CONTENT_OTHER otherwise. -/
theorem c4_verdict_invariant (c : Option Client) (api : ChatResult) (msg : List Char) :
    ((CheckMessageContent c api msg).isMalicious = false →
      (CheckMessageContent c api msg).errorCode = [] ∧
      (CheckMessageContent c api msg).reason = []) ∧
    ((CheckMessageContent c api msg).isMalicious = true →
      (CheckMessageContent c api msg).errorCode ≠ []) := by
  cases c with
  | none => exact ⟨fun _ => ⟨rfl, rfl⟩, fun h => by simp [CheckMessageContent] at h⟩
  | some cl =>
    cases hcl : cl.hasApiClient with
    | false =>
      constructor
      · intro _
        constructor <;> simp [CheckMessageContent, hcl]
      · intro h
        simp [CheckMessageContent, hcl] at h
    | true =>
      cases api with
      | failure e =>
        constructor
        · intro _
          constructor <;> simp [CheckMessageContent, hcl]
        · intro h
          simp [CheckMessageContent, hcl] at h
      | success cs =>
        cases cs with
        | nil =>
          constructor
          · intro _
            constructor <;> simp [CheckMessageContent, hcl]
          · intro h
            simp [CheckMessageContent, hcl] at h
        | cons content rest =>
          have hv := verdictFromCleaned_invariant (cleanResponse content)
          constructor
          · intro h
            simp [CheckMessageContent, hcl, moderationVerdict] at h ⊢
            exact hv.1 h
          · intro h
            simp [CheckMessageContent, hcl, moderationVerdict] at h ⊢
            exact hv.2 h

/-- Witness for C4 (amended) at a concrete clean outcome. -/
theorem c4_verdict_invariant_witness :
    (CheckMessageContent none (ChatResult.success []) []).errorCode = [] ∧
    (CheckMessageContent none (ChatResult.success []) []).reason = [] :=
  (c4_verdict_invariant none (ChatResult.success []) []).1 rfl

/-- An infix occurrence corresponds to a prefix of some tail. -/
theorem infix_iff_exists_drop {s t : List Char} :
    t <:+: s ↔ ∃ p, t <+: s.drop p := by
  constructor
  · rintro ⟨u, v, huv⟩
    refine ⟨u.length, ?_⟩
    rw [← huv, show u ++ t ++ v = u ++ (t ++ v) from by simp [List.append_assoc],
      List.drop_left]
    exact List.prefix_append t v
  · rintro ⟨p, hp⟩
    obtain ⟨w, hw⟩ := hp
    refine ⟨s.take p, w, ?_⟩
    rw [show s.take p ++ t ++ w = s.take p ++ (t ++ w) from by simp [List.append_assoc], hw]
    exact List.take_append_drop p s

/-- `strings.Contains` is infix occurrence. -/
theorem containsL_eq_infix {s t : List Char} :
    containsL s t = true ↔ t <:+: s := by
  rw [containsL_iff_exists, infix_iff_exists_drop]

/-- Cropping an all-`P` left block off an infix occurrence whose pattern
cannot start with a `P` character. -/
theorem infix_crop_left {tok a u : List Char} {P : Char → Prop}
    (ha : ∀ c ∈ a, P c) (hhead : ∀ c, tok.head? = some c → ¬ P c) (ht : tok ≠ [])
    (h : tok <:+: a ++ u) : tok <:+: u := by
  obtain ⟨p, q, hpq⟩ := h
  rw [show p ++ tok ++ q = p ++ (tok ++ q) from by simp [List.append_assoc]] at hpq
  by_cases hlen : a.length ≤ p.length
  · have h1 : a <+: a ++ u := List.prefix_append a u
    have h2 : p <+: a ++ u := ⟨tok ++ q, hpq⟩
    have hap : a <+: p := List.prefix_of_prefix_length_le h1 h2 hlen
    obtain ⟨p', rfl⟩ := hap
    rw [show a ++ p' ++ (tok ++ q) = a ++ (p' ++ (tok ++ q)) from by simp [List.append_assoc]]
      at hpq
    have hu : p' ++ (tok ++ q) = u := List.append_cancel_left hpq
    refine ⟨p', q, ?_⟩
    rw [← hu]
    simp [List.append_assoc]
  · exfalso
    push_neg at hlen
    cases tok with
    | nil => exact ht rfl
    | cons x xs =>
      have hget1 : (p ++ (x :: xs ++ q))[p.length]? = some x := by
        rw [List.getElem?_append, if_neg (by omega)]
        simp
      rw [hpq] at hget1
      rw [List.getElem?_append, if_pos hlen] at hget1
      have hxa : x ∈ a := List.getElem?_mem hget1
      exact hhead x rfl (ha x hxa)

/-- Cropping an all-`P` right block off an infix occurrence whose pattern
contains no `P` character. -/
theorem infix_crop_right {tok u b : List Char} {P : Char → Prop}
    (hb : ∀ c ∈ b, P c) (htok : ∀ c ∈ tok, ¬ P c) (ht : tok ≠ [])
    (h : tok <:+: u ++ b) : tok <:+: u := by
  have hrev : tok.reverse <:+: b.reverse ++ u.reverse := by
    have := List.reverse_infix.mpr h
    rwa [List.reverse_append] at this
  have hcrop : tok.reverse <:+: u.reverse := by
    refine infix_crop_left (fun c hc => hb c (List.mem_reverse.mp hc)) ?_ ?_ hrev
    · intro c hc
      have hcm : c ∈ tok.reverse := by
        cases htr : tok.reverse with
        | nil => rw [htr] at hc; cases hc
        | cons y ys =>
          rw [htr] at hc
          rw [← Option.some.inj hc]
          exact List.mem_cons_self y ys
      exact htok c (List.mem_reverse.mp hcm)
    · intro hrev2
      exact ht (by simpa using hrev2)
  exact List.reverse_infix.mp hcrop

/-- Occurrences of a pattern that can neither start in an all-`charFenceWs`
left block nor touch an all-`charTickWs` right block are occurrences in the
middle part. -/
theorem infix_middle {tok a m b : List Char}
    (ha : ∀ c ∈ a, charFenceWs c) (hb : ∀ c ∈ b, charTickWs c)
    (htokchars : ∀ c ∈ tok, ¬ charTickWs c)
    (hhead : ∀ c, tok.head? = some c → ¬ charFenceWs c)
    (ht : tok ≠ []) :
    tok <:+: a ++ m ++ b ↔ tok <:+: m := by
  constructor
  · intro h
    have h1 : tok <:+: a ++ m := infix_crop_right hb htokchars ht (by simpa using h)
    exact infix_crop_left ha hhead ht h1
  · intro h
    exact h.trans ⟨a, b, rfl⟩

/-- Any string splits as whitespace, its trim, and whitespace. -/
theorem trimSpaceL_decomposition (s : List Char) :
    ∃ w1 w2, s = w1 ++ trimSpaceL s ++ w2 ∧
      (∀ c ∈ w1, isSpaceChar c = true) ∧ (∀ c ∈ w2, isSpaceChar c = true) := by
  refine ⟨s.takeWhile isSpaceChar,
    ((s.dropWhile isSpaceChar).reverse.takeWhile isSpaceChar).reverse, ?_, ?_, ?_⟩
  · have hd : s.dropWhile isSpaceChar =
        ((s.dropWhile isSpaceChar).reverse.dropWhile isSpaceChar).reverse ++
        ((s.dropWhile isSpaceChar).reverse.takeWhile isSpaceChar).reverse := by
      conv_lhs => rw [← List.reverse_reverse (s.dropWhile isSpaceChar)]
      conv_lhs =>
        rw [← List.takeWhile_append_dropWhile (p := isSpaceChar)
          (l := (s.dropWhile isSpaceChar).reverse)]
      rw [List.reverse_append]
    conv_lhs => rw [← List.takeWhile_append_dropWhile (p := isSpaceChar) (l := s), hd]
    unfold trimSpaceL
    simp [List.append_assoc]
  · intro c hc
    exact List.mem_takeWhile_imp hc
  · intro c hc
    exact List.mem_takeWhile_imp (List.mem_reverse.mp hc)

/-- The text removed by `cleanResponse` is whitespace and fence material: the
input splits as a fence/whitespace prefix, the cleaned text, and a
backquote/whitespace suffix. -/
theorem cleanResponse_decomposition (r : List Char) :
    ∃ a b, r = a ++ cleanResponse r ++ b ∧
      (∀ c ∈ a, charFenceWs c) ∧ (∀ c ∈ b, charTickWs c) := by
  obtain ⟨w1, w2, hs, hw1, hw2⟩ := trimSpaceL_decomposition r
  by_cases h1 : (str "```json").isPrefixOf (trimSpaceL r)
  · obtain ⟨u, hu⟩ := List.isPrefixOf_iff_prefix.mp h1
    have htrim : trimPrefixL (trimSpaceL r) (str "```json") = u := by
      unfold trimPrefixL
      rw [if_pos h1, ← hu, List.drop_left]
    by_cases h2 : (str "```").isSuffixOf u
    · obtain ⟨v, hv⟩ := List.isSuffixOf_iff_suffix.mp h2
      have htrim2 : trimSuffixL u (str "```") = v := by
        unfold trimSuffixL
        rw [if_pos h2, ← hv]
        rw [show (v ++ str "```").length - (str "```").length = v.length from by simp]
        exact List.take_left v (str "```")
      obtain ⟨w3, w4, hv2, hw3, hw4⟩ := trimSpaceL_decomposition v
      have hcr : cleanResponse r = trimSpaceL v := by
        simp only [cleanResponse]
        rw [if_pos h1, htrim, htrim2]
      refine ⟨w1 ++ str "```json" ++ w3, w4 ++ str "```" ++ w2, ?_, ?_, ?_⟩
      · rw [hcr]
        conv_lhs => rw [hs, ← hu, ← hv, hv2]
        simp [List.append_assoc]
      · intro c hc
        simp only [List.mem_append] at hc
        rcases hc with (hc | hc) | hc
        · exact Or.inr (Or.inr (Or.inr (Or.inr (Or.inr (hw1 c hc)))))
        · revert c
          decide
        · exact Or.inr (Or.inr (Or.inr (Or.inr (Or.inr (hw3 c hc)))))
      · intro c hc
        simp only [List.mem_append] at hc
        rcases hc with (hc | hc) | hc
        · exact Or.inr (hw4 c hc)
        · revert c
          decide
        · exact Or.inr (hw2 c hc)
    · have htrim2 : trimSuffixL u (str "```") = u := by
        unfold trimSuffixL
        rw [if_neg h2]
      obtain ⟨w3, w4, hv2, hw3, hw4⟩ := trimSpaceL_decomposition u
      have hcr : cleanResponse r = trimSpaceL u := by
        simp only [cleanResponse]
        rw [if_pos h1, htrim, htrim2]
      refine ⟨w1 ++ str "```json" ++ w3, w4 ++ w2, ?_, ?_, ?_⟩
      · rw [hcr]
        conv_lhs => rw [hs, ← hu, hv2]
        simp [List.append_assoc]
      · intro c hc
        simp only [List.mem_append] at hc
        rcases hc with (hc | hc) | hc
        · exact Or.inr (Or.inr (Or.inr (Or.inr (Or.inr (hw1 c hc)))))
        · revert c
          decide
        · exact Or.inr (Or.inr (Or.inr (Or.inr (Or.inr (hw3 c hc)))))
      · intro c hc
        simp only [List.mem_append] at hc
        rcases hc with hc | hc
        · exact Or.inr (hw4 c hc)
        · exact Or.inr (hw2 c hc)
  · by_cases h1b : (str "```").isPrefixOf (trimSpaceL r)
    · obtain ⟨u, hu⟩ := List.isPrefixOf_iff_prefix.mp h1b
      have htrim : trimPrefixL (trimSpaceL r) (str "```") = u := by
        unfold trimPrefixL
        rw [if_pos h1b, ← hu, List.drop_left]
      by_cases h2 : (str "```").isSuffixOf u
      · obtain ⟨v, hv⟩ := List.isSuffixOf_iff_suffix.mp h2
        have htrim2 : trimSuffixL u (str "```") = v := by
          unfold trimSuffixL
          rw [if_pos h2, ← hv]
          rw [show (v ++ str "```").length - (str "```").length = v.length from by simp]
          exact List.take_left v (str "```")
        obtain ⟨w3, w4, hv2, hw3, hw4⟩ := trimSpaceL_decomposition v
        have hcr : cleanResponse r = trimSpaceL v := by
          simp only [cleanResponse]
          rw [if_neg h1, if_pos h1b, htrim, htrim2]
        refine ⟨w1 ++ str "```" ++ w3, w4 ++ str "```" ++ w2, ?_, ?_, ?_⟩
        · rw [hcr]
          conv_lhs => rw [hs, ← hu, ← hv, hv2]
          simp [List.append_assoc]
        · intro c hc
          simp only [List.mem_append] at hc
          rcases hc with (hc | hc) | hc
          · exact Or.inr (Or.inr (Or.inr (Or.inr (Or.inr (hw1 c hc)))))
          · revert c
            decide
          · exact Or.inr (Or.inr (Or.inr (Or.inr (Or.inr (hw3 c hc)))))
        · intro c hc
          simp only [List.mem_append] at hc
          rcases hc with (hc | hc) | hc
          · exact Or.inr (hw4 c hc)
          · revert c
            decide
          · exact Or.inr (hw2 c hc)
      · have htrim2 : trimSuffixL u (str "```") = u := by
          unfold trimSuffixL
          rw [if_neg h2]
        obtain ⟨w3, w4, hv2, hw3, hw4⟩ := trimSpaceL_decomposition u
        have hcr : cleanResponse r = trimSpaceL u := by
          simp only [cleanResponse]
          rw [if_neg h1, if_pos h1b, htrim, htrim2]
        refine ⟨w1 ++ str "```" ++ w3, w4 ++ w2, ?_, ?_, ?_⟩
        · rw [hcr]
          conv_lhs => rw [hs, ← hu, hv2]
          simp [List.append_assoc]
        · intro c hc
          simp only [List.mem_append] at hc
          rcases hc with (hc | hc) | hc
          · exact Or.inr (Or.inr (Or.inr (Or.inr (Or.inr (hw1 c hc)))))
          · revert c
            decide
          · exact Or.inr (Or.inr (Or.inr (Or.inr (Or.inr (hw3 c hc)))))
        · intro c hc
          simp only [List.mem_append] at hc
          rcases hc with hc | hc
          · exact Or.inr (hw4 c hc)
          · exact Or.inr (hw2 c hc)
    · obtain ⟨w3, w4, hv2, hw3, hw4⟩ := trimSpaceL_decomposition (trimSpaceL r)
      have hcr : cleanResponse r = trimSpaceL (trimSpaceL r) := by
        simp only [cleanResponse]
        rw [if_neg h1, if_neg h1b]
      refine ⟨w1 ++ w3, w4 ++ w2, ?_, ?_, ?_⟩
      · rw [hcr]
        conv_lhs => rw [hs, hv2]
        simp [List.append_assoc]
      · intro c hc
        simp only [List.mem_append] at hc
        rcases hc with hc | hc
        · exact Or.inr (Or.inr (Or.inr (Or.inr (Or.inr (hw1 c hc)))))
        · exact Or.inr (Or.inr (Or.inr (Or.inr (Or.inr (hw3 c hc)))))
      · intro c hc
        simp only [List.mem_append] at hc
        rcases hc with hc | hc
        · exact Or.inr (hw4 c hc)
        · exact Or.inr (hw2 c hc)

/-- Lowercasing leaves whitespace characters unchanged. -/
theorem toLowerChar_ws {c : Char} (h : isSpaceChar c = true) : toLowerChar c = c := by
  unfold isSpaceChar at h
  simp only [Bool.or_eq_true, beq_iff_eq] at h
  rcases h with ((((h | h) | h) | h) | h) | h <;> subst h <;> decide

/-- Lowercasing preserves the fence/whitespace character class. -/
theorem charFenceWs_toLower {c : Char} (h : charFenceWs c) : charFenceWs (toLowerChar c) := by
  rcases h with h | h | h | h | h | h
  · subst h; decide
  · subst h; decide
  · subst h; decide
  · subst h; decide
  · subst h; decide
  · rw [toLowerChar_ws h]
    exact Or.inr (Or.inr (Or.inr (Or.inr (Or.inr h))))

/-- Lowercasing preserves the backquote/whitespace character class. -/
theorem charTickWs_toLower {c : Char} (h : charTickWs c) : charTickWs (toLowerChar c) := by
  rcases h with h | h
  · subst h; decide
  · rw [toLowerChar_ws h]
    exact Or.inr h

/-- The heuristic token scan sees the same tokens in the raw response text as
in the cleaned one: cleaning only removes whitespace and fence material, and
neither scanned token can overlap it. -/
theorem containsTok_raw_eq_clean (r tok : List Char) (ht : tok ≠ [])
    (htokchars : ∀ c ∈ tok, ¬ charTickWs c)
    (hhead : ∀ c, tok.head? = some c → ¬ charFenceWs c) :
    containsL (lowerL r) tok = containsL (lowerL (cleanResponse r)) tok := by
  obtain ⟨a, b, hdec, ha, hb⟩ := cleanResponse_decomposition r
  rw [Bool.eq_iff_iff, containsL_eq_infix, containsL_eq_infix]
  have hlr : lowerL r = lowerL a ++ lowerL (cleanResponse r) ++ lowerL b := by
    conv_lhs => rw [hdec]
    simp [lowerL]
  rw [hlr]
  refine infix_middle ?_ ?_ htokchars hhead ht
  · intro c hc
    rw [lowerL, List.mem_map] at hc
    obtain ⟨c', hc', rfl⟩ := hc
    exact charFenceWs_toLower (ha c' hc')
  · intro c hc
    rw [lowerL, List.mem_map] at hc
    obtain ⟨c', hc', rfl⟩ := hc
    exact charTickWs_toLower (hb c' hc')

/-- C7: whenever JSON decoding of the (cleaned) response fails, the outcome is
decided by the heuristic on the raw response text: if it contains the tokens
"is_malicious" and "true" (case-insensitively) the verdict is
(true, CONTENT_OTHER, "") with nil error, otherwise (false, "", "") with nil
error — the parse failure is never surfaced as an error. -/
theorem c7_parse_failure_heuristic (ts : List (List Char)) (msg content : List Char)
    (h : decodeModeration (cleanResponse content) = none) :
    CheckMessageContent (some ⟨true, ts⟩) (ChatResult.success [content]) msg =
      if containsL (lowerL content) (str "is_malicious") &&
          containsL (lowerL content) (str "true") then
        ⟨true, str "CONTENT_OTHER", [], none, true⟩
      else ⟨false, [], [], none, true⟩ := by
  have hhead1 : ∀ c : Char, (str "is_malicious").head? = some c → ¬ charFenceWs c := by
    intro c hc
    have h2 : (str "is_malicious").head? = some 'i' := by decide
    rw [h2] at hc
    rw [← Option.some.inj hc]
    decide
  have hhead2 : ∀ c : Char, (str "true").head? = some c → ¬ charFenceWs c := by
    intro c hc
    have h2 : (str "true").head? = some 't' := by decide
    rw [h2] at hc
    rw [← Option.some.inj hc]
    decide
  have e1 := containsTok_raw_eq_clean content (str "is_malicious") (by decide) (by decide) hhead1
  have e2 := containsTok_raw_eq_clean content (str "true") (by decide) (by decide) hhead2
  have hred : CheckMessageContent (some ⟨true, ts⟩) (ChatResult.success [content]) msg =
      ⟨(moderationVerdict content).1, (moderationVerdict content).2.1,
        (moderationVerdict content).2.2, none, true⟩ := rfl
  rw [hred]
  unfold moderationVerdict verdictFromCleaned
  rw [h, ← e1, ← e2]
  cases hc : containsL (lowerL content) (str "is_malicious") &&
      containsL (lowerL content) (str "true") with
  | true => simp [hc]
  | false => simp [hc]

/-- Witness for C7 at a concrete undecodable response (trailing comma) whose
raw text carries both heuristic tokens. -/
theorem c7_parse_failure_heuristic_witness :
    CheckMessageContent (some ⟨true, []⟩)
        (ChatResult.success [str "\x7b\"is_malicious\": true,\x7d"]) [] =
      if containsL (lowerL (str "\x7b\"is_malicious\": true,\x7d")) (str "is_malicious") &&
          containsL (lowerL (str "\x7b\"is_malicious\": true,\x7d")) (str "true") then
        ⟨true, str "CONTENT_OTHER", [], none, true⟩
      else ⟨false, [], [], none, true⟩ :=
  c7_parse_failure_heuristic [] [] (str "\x7b\"is_malicious\": true,\x7d") (by decide)

/-- A list whose head fails the predicate is unchanged by `dropWhile`. -/
theorem dropWhile_eq_self_of_head {s : List Char} {p : Char → Bool}
    (h : ∀ c, s.head? = some c → p c = false) : s.dropWhile p = s := by
  cases s with
  | nil => rfl
  | cons c y => simp [List.dropWhile_cons, h c rfl]

/-- A string with non-whitespace ends is unchanged by trimming. -/
theorem trimSpaceL_eq_self {s : List Char}
    (h1 : ∀ c, s.head? = some c → isSpaceChar c = false)
    (h2 : ∀ c, s.getLast? = some c → isSpaceChar c = false) :
    trimSpaceL s = s := by
  have hrev : ∀ c, s.reverse.head? = some c → isSpaceChar c = false := by
    intro c hc
    rw [List.head?_reverse] at hc
    exact h2 c hc
  unfold trimSpaceL
  rw [dropWhile_eq_self_of_head h1, dropWhile_eq_self_of_head hrev, List.reverse_reverse]

/-- Trimming absorbs a leading whitespace character. -/
theorem trimSpaceL_cons_ws {c : Char} (h : isSpaceChar c = true) (s : List Char) :
    trimSpaceL (c :: s) = trimSpaceL s := by
  unfold trimSpaceL
  simp [List.dropWhile_cons, h]

/-- Trimming absorbs a trailing whitespace character. -/
theorem trimSpaceL_append_ws {c : Char} (h : isSpaceChar c = true) (s : List Char) :
    trimSpaceL (s ++ [c]) = trimSpaceL s := by
  unfold trimSpaceL
  rw [List.dropWhile_append]
  by_cases he : (s.dropWhile isSpaceChar).isEmpty
  · rw [if_pos he]
    have hs : s.dropWhile isSpaceChar = [] := by rwa [List.isEmpty_iff] at he
    simp [h, hs]
  · rw [if_neg he, List.reverse_append]
    simp [h]

/-- The doubly-trimmed-and-reversed core of a trim has a head failing the
predicate, so a further `dropWhile` is inert. -/
theorem dropWhile_rev_dropWhile (l : List Char) (p : Char → Bool) :
    ((l.dropWhile p).reverse.dropWhile p).reverse.dropWhile p =
      ((l.dropWhile p).reverse.dropWhile p).reverse := by
  apply dropWhile_eq_self_of_head
  intro c hc
  have hpre : ((l.dropWhile p).reverse.dropWhile p).reverse <+: l.dropWhile p := by
    have hsplit : (l.dropWhile p).reverse.takeWhile p ++ (l.dropWhile p).reverse.dropWhile p
        = (l.dropWhile p).reverse := List.takeWhile_append_dropWhile p _
    have hdec : l.dropWhile p = ((l.dropWhile p).reverse.dropWhile p).reverse ++
        ((l.dropWhile p).reverse.takeWhile p).reverse := by
      conv_lhs => rw [← List.reverse_reverse (l.dropWhile p), ← hsplit]
      rw [List.reverse_append]
    exact ⟨_, hdec.symm⟩
  obtain ⟨t, ht⟩ := hpre
  cases hcase : ((l.dropWhile p).reverse.dropWhile p).reverse with
  | nil => rw [hcase] at hc; cases hc
  | cons y ys =>
    rw [hcase] at hc ht
    have hdhead : (l.dropWhile p).head? = some y := by
      rw [← ht]
      rfl
    have hfalse : p y = false := by
      have hh := List.head?_dropWhile_not p l
      rw [hdhead] at hh
      simpa using hh
    rw [← Option.some.inj hc]
    exact hfalse

/-- Trimming is idempotent. -/
theorem trimSpaceL_idem (s : List Char) : trimSpaceL (trimSpaceL s) = trimSpaceL s := by
  unfold trimSpaceL
  rw [dropWhile_rev_dropWhile s isSpaceChar, List.reverse_reverse,
    List.dropWhile_idempotent]

/-- Head of a nonempty left factor is the head of the append. -/
theorem head?_append_left {l₁ l₂ : List Char} (h : l₁ ≠ []) :
    (l₁ ++ l₂).head? = l₁.head? := by
  cases l₁ with
  | nil => exact absurd rfl h
  | cons a t => rfl

/-- A pattern whose head differs from the string's head is not a prefix. -/
theorem not_isPrefixOf_of_head {p s : List Char} {c d : Char} (hs : s.head? = some c)
    (hp : p.head? = some d) (hne : d ≠ c) : p.isPrefixOf s = false := by
  apply Bool.eq_false_iff.mpr
  intro hcon
  obtain ⟨t, ht⟩ := List.isPrefixOf_iff_prefix.mp hcon
  cases p with
  | nil => cases hp
  | cons e p' =>
    have he : e = d := Option.some.inj hp
    have hhead : s.head? = some e := by
      rw [← ht]
      rfl
    rw [hs] at hhead
    exact hne (he ▸ (Option.some.inj hhead).symm)

/-- Removing the trailing fence from a newline-terminated fenced body. -/
theorem trimSuffix_nl_fence (body : List Char) :
    trimSuffixL (('\n' :: body) ++ str "\n```") (str "```") = ('\n' :: body) ++ ['\n'] := by
  have heq2 : ('\n' :: body) ++ str "\n```" = (('\n' :: body) ++ ['\n']) ++ str "```" := by
    rw [show str "\n```" = ['\n'] ++ str "```" from by decide]
    simp [List.append_assoc]
  unfold trimSuffixL
  rw [heq2, if_pos (List.isSuffixOf_iff_suffix.mpr (List.suffix_append _ _))]
  rw [show ((('\n' :: body) ++ ['\n']) ++ str "```").length - (str "```").length =
    (('\n' :: body) ++ ['\n']).length from by
      simp only [List.length_append, List.length_cons,
        show (str "```").length = 3 from by decide]
      omega]
  exact List.take_left _ _

/-- Cleaning a response wrapped in a language-tagged fence yields the trimmed
body. -/
theorem cleanResponse_wrapJson (body : List Char) :
    cleanResponse (str "```json\n" ++ body ++ str "\n```") = trimSpaceL body := by
  have heq : str "```json\n" ++ body ++ str "\n```" =
      str "```json" ++ (('\n' :: body) ++ str "\n```") := by
    rw [show str "```json\n" = str "```json" ++ ['\n'] from by decide]
    simp [List.append_assoc]
  have hW : (str "```json\n" ++ body ++ str "\n```").head? = some backtick := by
    rw [List.append_assoc, head?_append_left (by decide)]
    decide
  have hL : (str "```json\n" ++ body ++ str "\n```").getLast? = some backtick := by
    rw [List.getLast?_append_of_ne_nil _ (show str "\n```" ≠ [] from by decide)]
    decide
  have htrim : trimSpaceL (str "```json\n" ++ body ++ str "\n```") =
      str "```json\n" ++ body ++ str "\n```" := by
    apply trimSpaceL_eq_self
    · intro c hc
      rw [hW] at hc
      rw [← Option.some.inj hc]
      decide
    · intro c hc
      rw [hL] at hc
      rw [← Option.some.inj hc]
      decide
  have hpre : (str "```json").isPrefixOf (str "```json\n" ++ body ++ str "\n```") = true := by
    rw [heq]
    exact List.isPrefixOf_iff_prefix.mpr (List.prefix_append _ _)
  have hdrop : trimPrefixL (str "```json\n" ++ body ++ str "\n```") (str "```json") =
      ('\n' :: body) ++ str "\n```" := by
    unfold trimPrefixL
    rw [if_pos hpre, heq, List.drop_left]
  simp only [cleanResponse]
  rw [htrim, if_pos hpre, hdrop, trimSuffix_nl_fence]
  rw [trimSpaceL_append_ws (by decide)]
  exact trimSpaceL_cons_ws (by decide) body

/-- Cleaning a response wrapped in a bare fence yields the trimmed body. -/
theorem cleanResponse_wrapPlain (body : List Char) :
    cleanResponse (str "```\n" ++ body ++ str "\n```") = trimSpaceL body := by
  have heq : str "```\n" ++ body ++ str "\n```" =
      str "```" ++ (('\n' :: body) ++ str "\n```") := by
    rw [show str "```\n" = str "```" ++ ['\n'] from by decide]
    simp [List.append_assoc]
  have hW : (str "```\n" ++ body ++ str "\n```").head? = some backtick := by
    rw [List.append_assoc, head?_append_left (by decide)]
    decide
  have hL : (str "```\n" ++ body ++ str "\n```").getLast? = some backtick := by
    rw [List.getLast?_append_of_ne_nil _ (show str "\n```" ≠ [] from by decide)]
    decide
  have htrim : trimSpaceL (str "```\n" ++ body ++ str "\n```") =
      str "```\n" ++ body ++ str "\n```" := by
    apply trimSpaceL_eq_self
    · intro c hc
      rw [hW] at hc
      rw [← Option.some.inj hc]
      decide
    · intro c hc
      rw [hL] at hc
      rw [← Option.some.inj hc]
      decide
  have hnoJson : (str "```json").isPrefixOf (str "```\n" ++ body ++ str "\n```") = false := by
    apply Bool.eq_false_iff.mpr
    intro hcon
    have hp := List.isPrefixOf_iff_prefix.mp hcon
    rw [heq, show str "```json" = str "```" ++ str "json" from by decide,
      List.prefix_append_right_inj] at hp
    rw [show str "json" = 'j' :: str "son" from by decide, List.cons_append,
      List.cons_prefix_cons] at hp
    exact absurd hp.1 (by decide)
  have hpre : (str "```").isPrefixOf (str "```\n" ++ body ++ str "\n```") = true := by
    rw [heq]
    exact List.isPrefixOf_iff_prefix.mpr (List.prefix_append _ _)
  have hdrop : trimPrefixL (str "```\n" ++ body ++ str "\n```") (str "```") =
      ('\n' :: body) ++ str "\n```" := by
    unfold trimPrefixL
    rw [if_pos hpre, heq, List.drop_left]
  simp only [cleanResponse]
  rw [htrim, if_neg (by rw [hnoJson]; exact Bool.false_ne_true), if_pos hpre, hdrop,
    trimSuffix_nl_fence]
  rw [trimSpaceL_append_ws (by decide)]
  exact trimSpaceL_cons_ws (by decide) body

/-- Cleaning a bare JSON-object response (trimmed text starting with a brace)
is just trimming. -/
theorem cleanResponse_object_body (body : List Char)
    (hb : (trimSpaceL body).head? = some '\x7b') :
    cleanResponse body = trimSpaceL body := by
  have h1 : (str "```json").isPrefixOf (trimSpaceL body) = false :=
    not_isPrefixOf_of_head hb (show (str "```json").head? = some backtick from by decide)
      (show backtick ≠ '\x7b' from by decide)
  have h2 : (str "```").isPrefixOf (trimSpaceL body) = false :=
    not_isPrefixOf_of_head hb (show (str "```").head? = some backtick from by decide)
      (show backtick ≠ '\x7b' from by decide)
  simp only [cleanResponse]
  rw [if_neg (by rw [h1]; exact Bool.false_ne_true),
    if_neg (by rw [h2]; exact Bool.false_ne_true)]
  exact trimSpaceL_idem body

/-- C8: wrapping a JSON object body (trimmed text starting with a brace) in a
language-tagged or bare markdown fence, with surrounding newlines, leaves the
verdict of CheckMessageContent unchanged; and the concrete malicious scam
response reproduces its three fields exactly. -/
theorem c8_fence_round_trip :
    (∀ ts : List (List Char), ∀ msg body : List Char,
      (trimSpaceL body).head? = some '\x7b' →
      CheckMessageContent (some ⟨true, ts⟩)
          (ChatResult.success [str "```json\n" ++ body ++ str "\n```"]) msg =
        CheckMessageContent (some ⟨true, ts⟩) (ChatResult.success [body]) msg ∧
      CheckMessageContent (some ⟨true, ts⟩)
          (ChatResult.success [str "```\n" ++ body ++ str "\n```"]) msg =
        CheckMessageContent (some ⟨true, ts⟩) (ChatResult.success [body]) msg) ∧
    CheckMessageContent (some ⟨true, []⟩)
        (ChatResult.success
          [str "```json\n\x7b\"is_malicious\": true, \"error_code\": \"CONTENT_SCAM\", \"reason\": \"phishing link\"\x7d\n```"])
        [] =
      ⟨true, str "CONTENT_SCAM", str "phishing link", none, true⟩ := by
  constructor
  · intro ts msg body hb
    have hbody := cleanResponse_object_body body hb
    constructor
    · have hv : moderationVerdict (str "```json\n" ++ body ++ str "\n```") =
          moderationVerdict body := by
        unfold moderationVerdict
        rw [cleanResponse_wrapJson body, hbody]
      simp only [CheckMessageContent]
      rw [hv]
    · have hv : moderationVerdict (str "```\n" ++ body ++ str "\n```") =
          moderationVerdict body := by
        unfold moderationVerdict
        rw [cleanResponse_wrapPlain body, hbody]
      simp only [CheckMessageContent]
      rw [hv]
  · decide

/-- Witness for C8 at the concrete scam body. -/
theorem c8_fence_round_trip_witness :
    CheckMessageContent (some ⟨true, []⟩)
        (ChatResult.success
          [str "```json\n" ++
            str "\x7b\"is_malicious\": true, \"error_code\": \"CONTENT_SCAM\", \"reason\": \"phishing link\"\x7d" ++
            str "\n```"])
        [] =
      CheckMessageContent (some ⟨true, []⟩)
        (ChatResult.success
          [str "\x7b\"is_malicious\": true, \"error_code\": \"CONTENT_SCAM\", \"reason\": \"phishing link\"\x7d"])
        [] :=
  (c8_fence_round_trip.1 []
    [] (str "\x7b\"is_malicious\": true, \"error_code\": \"CONTENT_SCAM\", \"reason\": \"phishing link\"\x7d")
    (by decide)).1
